import Mathlib

set_option maxRecDepth 8000

/-!
Shallow embedding of `src/main.py`: determinization of a finite
paraconsistent nondeterministic automaton (FPNA).

Modelling conventions, justified against the source:
* Truth values are pairs in `ℚ × ℚ`.  The source only ever compares,
  `min`s and `max`es the components (never any other arithmetic), and all
  literals are decimal, so rationals model the computation exactly.
* A Python dict is modelled as an association list together with the
  operations `dictGet` (first-match lookup) and `dictInsert`
  (replace-or-add); `dict.values()` is `List.map Prod.snd`.  The raw
  transition table `delta` before completion is modelled as the partial
  map `α × σ × α → Option (ℚ × ℚ)` (a dict's lookup semantics); a `none`
  result corresponds to a Python `KeyError`.
* Python sets (`Q`, the set of transitions, `QD`) are modelled as lists
  without duplicates; set membership is list membership.
* The subset encoding `to_state` (the sorted concatenation of the digits
  of the member states — states are single-digit integers in every
  automaton of the repository) is modelled as the sorted list of member
  states, which is isomorphic to the digit string on the actual domain.
* Words in `step1`'s frontier are always nonempty (they are seeded with
  the single letters of `Sigma` and grown by appending a letter), so a
  frontier word `w` is represented as the pair `(w[:-1], w[-1])`;
  `wordOf` recovers the word itself.
-/

namespace FPNA

/-- Bottom truth value `⊥ = (0, 1)` ("definitely not reachable"). -/
def bot : ℚ × ℚ := (0, 1)

/-- Top truth value `⊤ = (1, 0)`. -/
def top : ℚ × ℚ := (1, 0)

/-- Paraconsistent conjunction, from `TwistAnd` in `src/main.py`. -/
def TwistAnd (p1 p2 : ℚ × ℚ) : ℚ × ℚ := (min p1.1 p2.1, max p1.2 p2.2)

/-- Paraconsistent disjunction, from `TwistOr` in `src/main.py`. -/
def TwistOr (p1 p2 : ℚ × ℚ) : ℚ × ℚ := (max p1.1 p2.1, min p1.2 p2.2)

/-- Membership of a truth value in the unit square `[0,1]²`. -/
def unitSq (p : ℚ × ℚ) : Prop := 0 ≤ p.1 ∧ p.1 ≤ 1 ∧ 0 ≤ p.2 ∧ p.2 ≤ 1

/-- Lookup in an association-list model of a Python dict. -/
def dictGet {κ β : Type} [DecidableEq κ] : List (κ × β) → κ → Option β
  | [], _ => none
  | e :: m, k => if k = e.1 then some e.2 else dictGet m k

/-- Key update in an association-list model of a Python dict
(`m[k] = v`): any previous binding of `k` is dropped. -/
def dictInsert {κ β : Type} [DecidableEq κ] (m : List (κ × β)) (k : κ) (v : β) :
    List (κ × β) :=
  (k, v) :: m.filter (fun e => decide (e.1 ≠ k))

/-- Element insertion in a list model of a Python set (`s.add x`). -/
def setInsert {β : Type} [DecidableEq β] (l : List β) (x : β) : List β :=
  if x ∈ l then l else x :: l

/-- The function `complete` of `src/main.py`: for every triple
`(q1, a, q2) ∈ Q × Sigma × Q` not already bound in the dict, bind it to
`⊥ = (0, 1)`; every other key keeps its binding. -/
def complete {σ α : Type} [DecidableEq σ] [DecidableEq α]
    (Sigma : List σ) (Q : List α) (d : α × σ × α → Option (ℚ × ℚ)) :
    α × σ × α → Option (ℚ × ℚ) :=
  fun t =>
    match d t with
    | some v => some v
    | none => if t.1 ∈ Q ∧ t.2.1 ∈ Sigma ∧ t.2.2 ∈ Q then some bot else none

/-- The function `deltastar` of `src/main.py` with the dict-lookup
semantics made explicit: `delta[(q1, w[0], r)]` is a dict access, so a
missing key (Python `KeyError`) makes the whole call fail (`none`). -/
def deltastarD {σ α : Type} [DecidableEq α] (Q : List α)
    (d : α × σ × α → Option (ℚ × ℚ)) : List σ → α → α → Option (ℚ × ℚ)
  | [], q1, q2 => some (if q1 = q2 then top else bot)
  | a :: w', q1, q2 =>
      Q.foldlM (fun res r =>
        match d (q1, a, r), deltastarD Q d w' r q2 with
        | some v, some s => some (TwistOr res (TwistAnd v s))
        | _, _ => none) bot
termination_by w _ _ => w.length

/-- The function `deltastar` of `src/main.py` read over the completed,
total transition function (the program runs it only after
`delta = complete()`, and `deltastarD_eq_some` below proves that on that
domain every dict lookup succeeds and yields exactly these values). -/
def deltastar {σ α : Type} [DecidableEq α] (Q : List α)
    (df : α → σ → α → ℚ × ℚ) : List σ → α → α → ℚ × ℚ
  | [], q1, q2 => if q1 = q2 then top else bot
  | a :: w', q1, q2 =>
      Q.foldl (fun res r => TwistOr res (TwistAnd (df q1 a r) (deltastar Q df w' r q2)))
        bot
termination_by w _ _ => w.length

/-- The function `reach` of `src/main.py`:
`{q for q in Q if deltastar(p, w, q) != (0, 1)}`. -/
def reach {σ α : Type} [DecidableEq α] (Q : List α) (df : α → σ → α → ℚ × ℚ)
    (p : α) (w : List σ) : List α :=
  Q.filter (fun q => decide (deltastar Q df w p q ≠ bot))

/-- The function `to_state` of `src/main.py`: the canonical encoding of a
subset of `Q` as the sorted list of its members (the source writes the
sorted single-digit states as a string). -/
def to_state {α : Type} [LinearOrder α] (s : List α) : List α :=
  s.insertionSort (· ≤ ·)

/-- The word represented by a frontier entry `(w[:-1], w[-1])`. -/
def wordOf {σ : Type} (pl : List σ × σ) : List σ := pl.1 ++ [pl.2]

/-- The function `add_letter` of `src/main.py`: extend every word of `W`
by every letter of `Sigma` (each result is kept in the
`(w[:-1], w[-1])` representation). -/
def add_letter {σ : Type} (Sigma : List σ) (W : List (List σ × σ)) :
    List (List σ × σ) :=
  W.flatMap (fun pl => Sigma.map (fun a => (wordOf pl, a)))

/-- State of `step1`'s while loop: the discovered transition set, the
`words_states` dict (word ↦ encoding of its reachable subset; `[]`
encodes the deadlock marker `''`), and the frontier `next_words`. -/
structure Det (σ α : Type) where
  transitions : List (List α × σ × List α)
  ws : List (List σ × List α)
  frontier : List (List σ × σ)

/-- Body of the `for w in next_words` loop of `step1` for one word:
resolve the source encoding from the prefix (defaulting to the encoding
of `{initial}`), compute the target encoding, record the transition when
it is new and the target nonempty, and report whether the word survives
(is neither a deadlock nor a duplicate of an already-cached subset).
The check against `words_states.values()` happens before the insertion
`words_states[w] = new_state`, exactly as in the source. -/
def processWord {σ α : Type} [DecidableEq σ] [LinearOrder α]
    (Q : List α) (df : α → σ → α → ℚ × ℚ) (ini : α) (st : Det σ α)
    (pl : List σ × σ) : Det σ α × Bool :=
  let prev_state := (dictGet st.ws pl.1).getD (to_state [ini])
  let new_state := to_state (reach Q df ini (wordOf pl))
  let transitions' :=
    if (prev_state, pl.2, new_state) ∉ st.transitions ∧ new_state ≠ [] then
      (prev_state, pl.2, new_state) :: st.transitions
    else st.transitions
  let survive : Bool :=
    if new_state ∈ st.ws.map Prod.snd ∨ new_state = [] then false else true
  (⟨transitions', dictInsert st.ws (wordOf pl) new_state, st.frontier⟩, survive)

/-- One step of the fold realising the `for w in next_words` loop; the
accumulator carries the loop state and the surviving words (`words`
after its `remove` calls, in order). -/
def procStep {σ α : Type} [DecidableEq σ] [LinearOrder α]
    (Q : List α) (df : α → σ → α → ℚ × ℚ) (ini : α)
    (acc : Det σ α × List (List σ × σ)) (pl : List σ × σ) :
    Det σ α × List (List σ × σ) :=
  let r := processWord Q df ini acc.1 pl
  (r.1, if r.2 then acc.2 ++ [pl] else acc.2)

/-- The whole `for w in next_words` loop of one iteration of `step1`'s
while loop: returns the updated loop state and the surviving words. -/
def roundFold {σ α : Type} [DecidableEq σ] [LinearOrder α]
    (Q : List α) (df : α → σ → α → ℚ × ℚ) (ini : α) (st : Det σ α) :
    Det σ α × List (List σ × σ) :=
  st.frontier.foldl (procStep Q df ini) (st, [])

/-- One iteration of `step1`'s while loop (identity once the loop
condition `next_words != []` fails, so iterating freezes). -/
def step1Round {σ α : Type} [DecidableEq σ] [LinearOrder α]
    (Sigma : List σ) (Q : List α) (df : α → σ → α → ℚ × ℚ) (ini : α)
    (st : Det σ α) : Det σ α :=
  if st.frontier = [] then st
  else
    let r := roundFold Q df ini st
    ⟨r.1.transitions, r.1.ws, add_letter Sigma r.2⟩

/-- Initial loop state of `step1`: no transitions, empty dict, frontier
seeded with the single-letter words (`next_words = Sigma.copy()`). -/
def st0 {σ α : Type} (Sigma : List σ) : Det σ α :=
  ⟨[], [], Sigma.map (fun a => ([], a))⟩

/-- Loop state of `step1` after `n` iterations of the while loop. -/
def itRound {σ α : Type} [DecidableEq σ] [LinearOrder α]
    (Sigma : List σ) (Q : List α) (df : α → σ → α → ℚ × ℚ) (ini : α)
    (n : ℕ) : Det σ α :=
  (step1Round Sigma Q df ini)^[n] (st0 Sigma)

/-- The function `step1` of `src/main.py`.  Its while loop provably
reaches an empty frontier within `2 ^ Q.length` iterations
(theorem `C5_step1_terminates_bounds`), after which `step1Round` is the
identity, so running that many iterations yields the loop's final
state. -/
def step1 {σ α : Type} [DecidableEq σ] [LinearOrder α]
    (Sigma : List σ) (Q : List α) (df : α → σ → α → ℚ × ℚ) (ini : α) :
    List (List α × σ × List α) :=
  (itRound Sigma Q df ini (2 ^ Q.length)).transitions

/-- Encoding of the subset reached from the initial state by a frontier
word — a pure function of the word, used to reason about `step1`. -/
def stateOf {σ α : Type} [DecidableEq α] [LinearOrder α] (Q : List α)
    (df : α → σ → α → ℚ × ℚ) (ini : α) (pl : List σ × σ) : List α :=
  to_state (reach Q df ini (wordOf pl))

/-- The words that survive (and hence get extended by `add_letter`) in
iteration `n` of `step1`'s while loop. -/
def roundSurvivors {σ α : Type} [DecidableEq σ] [LinearOrder α]
    (Sigma : List σ) (Q : List α) (df : α → σ → α → ℚ × ℚ) (ini : α)
    (n : ℕ) : List (List σ × σ) :=
  (roundFold Q df ini (itRound Sigma Q df ini n)).2

/-- Number of distinct non-empty subset encodings recorded in
`words_states` — the deterministic states discovered so far. -/
def dsCount {σ α : Type} [DecidableEq α] (st : Det σ α) : ℕ :=
  ((st.ws.map Prod.snd).filter (fun v => decide (v ≠ []))).toFinset.card

/-- Invariant of `step1`'s loop state after `n` iterations: every dict
key is a word of length at most `n`, every frontier word has length
`n + 1` (its stored part has length `n`), the frontier has no
duplicates, and every value recorded in `words_states` is the encoding
of the subset reached by some word. -/
def detInv {σ α : Type} [DecidableEq α] [LinearOrder α] (Q : List α)
    (df : α → σ → α → ℚ × ℚ) (ini : α) (n : ℕ) (st : Det σ α) : Prop :=
  (∀ e ∈ st.ws, e.1.length ≤ n) ∧
  (∀ pl ∈ st.frontier, pl.1.length = n) ∧
  st.frontier.Nodup ∧
  (∀ v ∈ st.ws.map Prod.snd, ∃ w, v = to_state (reach Q df ini w))

/-- The weight `step2` computes for one discovered transition
`(S1, a, S2)`: starting from `⊥`, fold `TwistOr` over
`delta(p, a, q)` for `p ∈ S1`, `q ∈ S2` (the two nested `for` loops). -/
def aggWeight {σ α : Type} (df : α → σ → α → ℚ × ℚ)
    (t : List α × σ × List α) : ℚ × ℚ :=
  t.1.foldl (fun v p => t.2.2.foldl (fun v' q => TwistOr v' (df p t.2.1 q)) v) bot

/-- The same aggregation written as a single fold over all pairs
`(p, q) ∈ S1 × S2`, as the specification phrases it. -/
def pairsWeight {σ α : Type} (df : α → σ → α → ℚ × ℚ)
    (t : List α × σ × List α) : ℚ × ℚ :=
  (t.1.flatMap (fun p => t.2.2.map (fun q => df p t.2.1 q))).foldl TwistOr bot

/-- The function `step2` of `src/main.py`: register the endpoints of
every discovered transition into the deterministic state set `QD` and
bind the transition to its aggregated weight in the dict `deltaD`. -/
def step2 {σ α : Type} [DecidableEq σ] [DecidableEq α]
    (df : α → σ → α → ℚ × ℚ) (ts : List (List α × σ × List α)) :
    List (List α) × List ((List α × σ × List α) × (ℚ × ℚ)) :=
  ts.foldl
    (fun acc t =>
      (setInsert (setInsert acc.1 t.1) t.2.2, dictInsert acc.2 t (aggWeight df t)))
    ([], [])

/-- The function `is_final` of `src/main.py`: the deterministic states
whose encoding contains a final state of the original automaton. -/
def is_final {α : Type} [DecidableEq α] (F : List α) (QD : List (List α)) :
    List (List α) :=
  QD.filter (fun s => s.any (fun x => decide (x ∈ F)))

/-! The worked example automaton of `src/main.py` (Example 5). -/

def exSigma : List Char := ['a', 'b']

def exQ : List ℕ := [0, 1, 2, 3]

def exInitial : ℕ := 0

def exF : List ℕ := [0, 3]

/-- The raw transition dict of Example 5. -/
def exDelta0 : ℕ × Char × ℕ → Option (ℚ × ℚ) := fun t =>
  if t = (0, 'b', 0) then some (1, 0)
  else if t = (0, 'a', 1) then some (0.5, 0.6)
  else if t = (0, 'a', 2) then some (0.4, 0.8)
  else if t = (2, 'b', 0) then some (1, 0)
  else if t = (1, 'b', 3) then some (0.8, 1)
  else none

/-- The completed transition dict (`delta = complete()`). -/
def exDelta : ℕ × Char × ℕ → Option (ℚ × ℚ) := complete exSigma exQ exDelta0

/-- The completed transition table as a total function. -/
def exDf : ℕ → Char → ℕ → ℚ × ℚ := fun q1 a q2 => (exDelta (q1, a, q2)).getD bot

def exStep1 : List (List ℕ × Char × List ℕ) := step1 exSigma exQ exDf exInitial

def exStep2 : List (List ℕ) × List ((List ℕ × Char × List ℕ) × (ℚ × ℚ)) :=
  step2 exDf exStep1

def exQD : List (List ℕ) := exStep2.1

def exDeltaD : List ((List ℕ × Char × List ℕ) × (ℚ × ℚ)) := exStep2.2

/-! A degenerate automaton exercising the `step1` edge case: one state,
one letter, no raw transitions, so no symbol reaches a non-empty set. -/

def edSigma : List Char := ['a']

def edQ : List ℕ := [0]

def edDelta0 : ℕ × Char × ℕ → Option (ℚ × ℚ) := fun _ => none

def edDf : ℕ → Char → ℕ → ℚ × ℚ :=
  fun q1 a q2 => (complete edSigma edQ edDelta0 (q1, a, q2)).getD bot

def edStep1 : List (List ℕ × Char × List ℕ) := step1 edSigma edQ edDf 0

def edQD : List (List ℕ) := (step2 edDf edStep1).1

/-! Input validation.  `src/main.py` holds its automaton as literal
module-level data; the specification assigns construction and validation
of the automaton value to an external collaborator (spec sections 6 and
7), so that collaborator is modelled from the spec. -/

/-- An original-automaton value as assembled by the external input
collaborator: alphabet, states, initial state, final states, and the raw
(not yet completed) transition entries. -/
structure FPNAInput (σ α : Type) where
  Sigma : List σ
  Q : List α
  initial : α
  F : List α
  entries : List ((α × σ × α) × (ℚ × ℚ))

/-- Modelled from the spec: well-formedness of an original-automaton
value (spec section 7): the initial state lies in `Q`, the final states
form a subset of `Q`, every raw transition value lies in `[0,1]²`, and
every transition key references only states in `Q` and symbols in
`Sigma`. -/
def wellFormedInput {σ α : Type} [DecidableEq σ] [DecidableEq α]
    (A : FPNAInput σ α) : Prop :=
  A.initial ∈ A.Q ∧ (∀ f ∈ A.F, f ∈ A.Q) ∧
    (∀ e ∈ A.entries, unitSq e.2) ∧
    (∀ e ∈ A.entries, e.1.1 ∈ A.Q ∧ e.1.2.1 ∈ A.Sigma ∧ e.1.2.2 ∈ A.Q)

instance {σ α : Type} [DecidableEq σ] [DecidableEq α] (A : FPNAInput σ α) :
    Decidable (wellFormedInput A) := by
  unfold wellFormedInput unitSq; infer_instance

/-- Modelled from the spec: the constructor of the original-automaton
value, missing from `src/` (spec section 6 assigns it to an external
collaborator).  It rejects ill-formed input at construction time —
before any part of the algorithm runs — and otherwise returns the value
unchanged. -/
def mkFPNA {σ α : Type} [DecidableEq σ] [DecidableEq α] (A : FPNAInput σ α) :
    Option (FPNAInput σ α) :=
  if wellFormedInput A then some A else none

/-- An ill-formed input (its initial state `1` is not a state). -/
def badInput : FPNAInput Char ℕ := ⟨['a'], [0], 1, [], []⟩

/-! Helper lemmas about the dict model. -/

theorem dictGet_nil {κ β : Type} [DecidableEq κ] (k : κ) :
    dictGet ([] : List (κ × β)) k = none := rfl

theorem dictGet_cons {κ β : Type} [DecidableEq κ] (e : κ × β) (m : List (κ × β))
    (k : κ) :
    dictGet (e :: m) k = if k = e.1 then some e.2 else dictGet m k := rfl

theorem dictGet_filter_ne {κ β : Type} [DecidableEq κ] (m : List (κ × β))
    (k k' : κ) (h : k' ≠ k) :
    dictGet (m.filter (fun e => decide (e.1 ≠ k))) k' = dictGet m k' := by
  induction m with
  | nil => rfl
  | cons e m ih =>
    rw [List.filter_cons]
    by_cases he : e.1 = k
    · rw [if_neg (by simp [he]), ih, dictGet_cons,
        if_neg (fun hk => h (hk.trans he))]
    · rw [if_pos (by simp [he]), dictGet_cons, dictGet_cons, ih]

theorem dictGet_dictInsert {κ β : Type} [DecidableEq κ] (m : List (κ × β))
    (k k' : κ) (v : β) :
    dictGet (dictInsert m k v) k' = if k' = k then some v else dictGet m k' := by
  by_cases h : k' = k
  · simp [dictInsert, dictGet, h]
  · rw [dictInsert, dictGet, if_neg h, if_neg h, dictGet_filter_ne m k k' h]

theorem dictInsert_values_fresh {κ β : Type} [DecidableEq κ] (m : List (κ × β))
    (k : κ) (v : β) (h : ∀ e ∈ m, e.1 ≠ k) :
    (dictInsert m k v).map Prod.snd = v :: m.map Prod.snd := by
  rw [dictInsert, List.map_cons]
  congr 1
  rw [List.filter_eq_self.2 (fun e he => by simpa using h e he)]

theorem dictInsert_keys_sub {κ β : Type} [DecidableEq κ] (m : List (κ × β))
    (k : κ) (v : β) (k' : κ) (h : k' ∈ (dictInsert m k v).map Prod.fst) :
    k' = k ∨ k' ∈ m.map Prod.fst := by
  rcases List.mem_map.1 h with ⟨e, he, rfl⟩
  rcases List.mem_cons.1 he with rfl | he'
  · exact Or.inl rfl
  · exact Or.inr (List.mem_map.2 ⟨e, (List.mem_filter.1 he').1, rfl⟩)

theorem append_singleton_inj {γ : Type} {l1 l2 : List γ} {x y : γ}
    (h : l1 ++ [x] = l2 ++ [y]) : l1 = l2 ∧ x = y := by
  have h' := congrArg List.reverse h
  simp only [List.reverse_append, List.reverse_cons, List.reverse_nil,
    List.nil_append, List.singleton_append, List.cons.injEq] at h'
  exact ⟨by simpa using congrArg List.reverse h'.2, h'.1⟩

theorem wordOf_inj {σ : Type} {a b : List σ × σ} (h : wordOf a = wordOf b) :
    a = b := by
  rcases append_singleton_inj h with ⟨h1, h2⟩
  exact Prod.ext h1 h2

/-! Lookups in the completed transition dict always succeed on
`Q × Sigma × Q`, with the values of the total view. -/

theorem complete_lookup {σ α : Type} [DecidableEq σ] [DecidableEq α]
    (Sigma : List σ) (Q : List α) (d : α × σ × α → Option (ℚ × ℚ))
    (q1 : α) (a : σ) (r : α) (hq1 : q1 ∈ Q) (ha : a ∈ Sigma) (hr : r ∈ Q) :
    complete Sigma Q d (q1, a, r) =
      some ((complete Sigma Q d (q1, a, r)).getD bot) := by
  unfold complete
  cases h : d (q1, a, r) with
  | some v => simp
  | none => simp [hq1, ha, hr]

/-- On states of `Q` and words over `Sigma`, the dict-semantics
`deltastar` never hits a missing key and computes exactly the value of
the pure `deltastar` over the completed total transition function. -/
theorem deltastarD_eq_some {σ α : Type} [DecidableEq σ] [DecidableEq α]
    (Sigma : List σ) (Q : List α) (d : α × σ × α → Option (ℚ × ℚ))
    (w : List σ) (q1 q2 : α) (hq1 : q1 ∈ Q) (hw : ∀ s ∈ w, s ∈ Sigma) :
    deltastarD Q (complete Sigma Q d) w q1 q2 =
      some (deltastar Q (fun p a q => (complete Sigma Q d (p, a, q)).getD bot)
        w q1 q2) := by
  induction w generalizing q1 with
  | nil => simp [deltastarD, deltastar]
  | cons a w' ih =>
    have ha : a ∈ Sigma := hw a (List.mem_cons_self a w')
    have hw' : ∀ s ∈ w', s ∈ Sigma := fun s hs => hw s (List.mem_cons_of_mem a hs)
    rw [deltastarD, deltastar]
    have key : ∀ (l : List α), (∀ r ∈ l, r ∈ Q) → ∀ acc : ℚ × ℚ,
        List.foldlM (fun res r =>
          match complete Sigma Q d (q1, a, r),
              deltastarD Q (complete Sigma Q d) w' r q2 with
          | some v, some s => some (TwistOr res (TwistAnd v s))
          | _, _ => none) acc l =
        some (List.foldl (fun res r =>
          TwistOr res
            (TwistAnd ((complete Sigma Q d (q1, a, r)).getD bot)
              (deltastar Q (fun p a' q => (complete Sigma Q d (p, a', q)).getD bot)
                w' r q2))) acc l) := by
      intro l
      induction l with
      | nil => intro _ acc; simp
      | cons r l ihl =>
        intro hl acc
        have hr : r ∈ Q := hl r (List.mem_cons_self r l)
        rw [List.foldlM_cons, complete_lookup Sigma Q d q1 a r hq1 ha hr,
          ih r hr hw']
        simp only [Option.bind_eq_bind, Option.some_bind]
        rw [List.foldl_cons]
        exact ihl (fun x hx => hl x (List.mem_cons_of_mem r hx)) _
    exact key Q (fun r hr => hr) bot

/-! Helper lemmas for `step2`'s weight computation. -/

theorem foldl_TwistOr_flatMap {γ : Type} (l : List γ) (g : γ → List (ℚ × ℚ))
    (b : ℚ × ℚ) :
    (l.flatMap g).foldl TwistOr b =
      l.foldl (fun acc x => (g x).foldl TwistOr acc) b := by
  induction l generalizing b with
  | nil => rfl
  | cons x l ih => rw [List.flatMap_cons, List.foldl_append, List.foldl_cons, ih]

theorem aggWeight_eq_pairsWeight {σ α : Type} (df : α → σ → α → ℚ × ℚ)
    (t : List α × σ × List α) : aggWeight df t = pairsWeight df t := by
  rw [pairsWeight, foldl_TwistOr_flatMap, aggWeight]
  congr 1
  funext acc p
  rw [List.foldl_map]

theorem step2_dictGet {σ α : Type} [DecidableEq σ] [DecidableEq α]
    (df : α → σ → α → ℚ × ℚ) (ts : List (List α × σ × List α))
    (acc : List (List α) × List ((List α × σ × List α) × (ℚ × ℚ)))
    (t : List α × σ × List α) :
    dictGet
      ((ts.foldl (fun acc t =>
        (setInsert (setInsert acc.1 t.1) t.2.2,
          dictInsert acc.2 t (aggWeight df t))) acc).2) t =
      if t ∈ ts then some (aggWeight df t) else dictGet acc.2 t := by
  induction ts generalizing acc with
  | nil => simp
  | cons t' ts ih =>
    rw [List.foldl_cons, ih]
    by_cases h : t ∈ ts
    · rw [if_pos h, if_pos (List.mem_cons_of_mem t' h)]
    · rw [if_neg h, dictGet_dictInsert]
      by_cases ht : t = t'
      · rw [if_pos ht, if_pos (List.mem_cons.2 (Or.inl ht)), ht]
      · rw [if_neg ht, if_neg (by simp [List.mem_cons, ht, h])]

/-! The ten claims. -/

/-- C1: for states `q1, q2 ∈ Q` and a word `w` over `Sigma`, `deltastar`
(run, as in the source, over the completed transition dict) returns
`(1,0)` on the empty word when `q1 = q2`, `(0,1)` on the empty word when
`q1 ≠ q2`, and on `w = a·w'` the `TwistOr`-fold, from `⊥ = (0,1)`, over
all `r ∈ Q` of `TwistAnd(delta(q1,a,r), deltastar(r,w',q2))`. -/
theorem C1_deltastar_equations {σ α : Type} [DecidableEq σ] [DecidableEq α]
    (Sigma : List σ) (Q : List α) (d : α × σ × α → Option (ℚ × ℚ))
    (q1 q2 : α) (w : List σ) (hq1 : q1 ∈ Q) (hw : ∀ s ∈ w, s ∈ Sigma) :
    (w = [] → deltastarD Q (complete Sigma Q d) w q1 q2 =
      some (if q1 = q2 then ((1 : ℚ), (0 : ℚ)) else ((0 : ℚ), (1 : ℚ)))) ∧
    (∀ a w', w = a :: w' →
      deltastarD Q (complete Sigma Q d) w q1 q2 =
        some (Q.foldl (fun res r =>
          TwistOr res (TwistAnd ((complete Sigma Q d (q1, a, r)).getD bot)
            ((deltastarD Q (complete Sigma Q d) w' r q2).getD bot))) bot)) := by
  constructor
  · rintro rfl
    simp [deltastarD, top, bot]
  · rintro a w' rfl
    have hw' : ∀ s ∈ w', s ∈ Sigma := fun s hs => hw s (List.mem_cons_of_mem a hs)
    rw [deltastarD_eq_some Sigma Q d (a :: w') q1 q2 hq1 hw, deltastar]
    congr 1
    apply List.foldl_ext
    intro acc r hr
    rw [deltastarD_eq_some Sigma Q d w' r q2 hr hw']
    rfl

/-- Witness for C1 at the worked example (`q1 = 0`, `q2 = 1`, `w = "a"`). -/
theorem C1_deltastar_equations_witness :
    deltastarD exQ (complete exSigma exQ exDelta0) ['a'] 0 1 =
      some (exQ.foldl (fun res r =>
        TwistOr res (TwistAnd ((complete exSigma exQ exDelta0 (0, 'a', r)).getD bot)
          ((deltastarD exQ (complete exSigma exQ exDelta0) [] r 1).getD bot))) bot) :=
  (C1_deltastar_equations exSigma exQ exDelta0 0 1 ['a'] (by decide)
    (by decide)).2 'a' [] rfl

/-- C2: on the worked example, `step1` discovers the transition from the
encoding of `{0}` on `'a'` to the encoding of `{1,2}` and the transition
from `{0}` on `'b'` back to `{0}`, and `step2` assigns `({0}, a, {1,2})`
the weight `TwistOr((0.5,0.6),(0.4,0.8)) = (0.5,0.6)`. -/
theorem C2_worked_example :
    ([0], 'a', [1, 2]) ∈ exStep1 ∧ ([0], 'b', [0]) ∈ exStep1 ∧
    dictGet exDeltaD ([0], 'a', [1, 2]) = some (TwistOr (0.5, 0.6) (0.4, 0.8)) ∧
    TwistOr (0.5, 0.6) (0.4, 0.8) = ((0.5 : ℚ), (0.6 : ℚ)) := by
  with_unfolding_all decide

/-- C3: `step2` assigns every transition `(S1, a, S2)` it is given the
`TwistOr`-fold, from `⊥`, of `delta(p, a, q)` over all pairs
`p ∈ S1`, `q ∈ S2`. -/
theorem C3_step2_weight_aggregation {σ α : Type} [DecidableEq σ] [DecidableEq α]
    (df : α → σ → α → ℚ × ℚ) (ts : List (List α × σ × List α))
    (t : List α × σ × List α) (h : t ∈ ts) :
    dictGet (step2 df ts).2 t = some (aggWeight df t) ∧
    aggWeight df t = pairsWeight df t := by
  refine ⟨?_, aggWeight_eq_pairsWeight df t⟩
  rw [step2, step2_dictGet, if_pos h]

/-- Witness for C3 at the worked example's transition `({0}, a, {1,2})`. -/
theorem C3_step2_weight_aggregation_witness :
    (([0], 'a', [1, 2]) ∈ exStep1) ∧
    (dictGet (step2 exDf exStep1).2 ([0], 'a', [1, 2]) =
        some (aggWeight exDf ([0], 'a', [1, 2])) ∧
      aggWeight exDf ([0], 'a', [1, 2]) = pairsWeight exDf ([0], 'a', [1, 2])) := by
  have h : ([0], 'a', [1, 2]) ∈ exStep1 := by with_unfolding_all decide
  exact ⟨h, C3_step2_weight_aggregation exDf exStep1 ([0], 'a', [1, 2]) h⟩

/-- C4: on `[0,1]²`, `TwistAnd` and `TwistOr` are commutative,
associative and idempotent, `⊥ = (0,1)` is the identity of `TwistOr` and
absorbing for `TwistAnd`, `(1,0)` is the identity of `TwistAnd` and
absorbing for `TwistOr`, and both operators are closed over `[0,1]²`. -/
theorem C4_algebra_laws (x y z : ℚ × ℚ) (hx : unitSq x) (hy : unitSq y)
    (hz : unitSq z) :
    TwistAnd x y = TwistAnd y x ∧
    TwistOr x y = TwistOr y x ∧
    TwistAnd (TwistAnd x y) z = TwistAnd x (TwistAnd y z) ∧
    TwistOr (TwistOr x y) z = TwistOr x (TwistOr y z) ∧
    TwistAnd x x = x ∧ TwistOr x x = x ∧
    TwistOr x bot = x ∧ TwistAnd x bot = bot ∧
    TwistAnd x top = x ∧ TwistOr x top = top ∧
    unitSq (TwistAnd x y) ∧ unitSq (TwistOr x y) := by
  obtain ⟨hx1, hx2, hx3, hx4⟩ := hx
  obtain ⟨hy1, hy2, hy3, hy4⟩ := hy
  refine ⟨?_, ?_, ?_, ?_, ?_, ?_, ?_, ?_, ?_, ?_, ?_, ?_⟩
  · simp [TwistAnd, min_comm, max_comm]
  · simp [TwistOr, min_comm, max_comm]
  · simp [TwistAnd, min_assoc, max_assoc]
  · simp [TwistOr, min_assoc, max_assoc]
  · simp [TwistAnd]
  · simp [TwistOr]
  · simp [TwistOr, bot, Prod.ext_iff, max_eq_left hx1, min_eq_left hx4]
  · simp [TwistAnd, bot, Prod.ext_iff, min_eq_right hx1, max_eq_right hx4]
  · simp [TwistAnd, top, Prod.ext_iff, min_eq_left hx2, max_eq_left hx3]
  · simp [TwistOr, top, Prod.ext_iff, max_eq_right hx2, min_eq_right hx3]
  · exact ⟨le_min hx1 hy1, le_trans (min_le_left _ _) hx2,
      le_trans hx3 (le_max_left _ _), max_le hx4 hy4⟩
  · exact ⟨le_trans hx1 (le_max_left _ _), max_le hx2 hy2,
      le_min hx3 hy3, le_trans (min_le_left _ _) hx4⟩

/-- Witness for C4 at `x = y = z = ⊥`. -/
theorem C4_algebra_laws_witness : unitSq bot ∧ TwistOr bot bot = bot := by
  have h : unitSq bot := by norm_num [unitSq, bot]
  exact ⟨h, (C4_algebra_laws bot bot bot h h h).2.2.2.2.2.1⟩

/-- C6: a deterministic state is reported final by `is_final` exactly
when it belongs to the given state set and contains a member of `F`; on
the worked example, the encoding of `{0}` is final and the encoding of
`{1,2}` is not. -/
theorem C6_final_states :
    (∀ (F : List ℕ) (QD : List (List ℕ)) (s : List ℕ),
      s ∈ is_final F QD ↔ s ∈ QD ∧ ∃ x ∈ s, x ∈ F) ∧
    [0] ∈ exQD ∧ [0] ∈ is_final exF exQD ∧
    [1, 2] ∈ exQD ∧ [1, 2] ∉ is_final exF exQD := by
  refine ⟨?_, ?_⟩
  · intro F QD s
    simp [is_final, List.mem_filter, List.any_eq_true]
  · with_unfolding_all decide

/-- C7: `complete` keeps every existing dict entry, binds every missing
triple of `Q × Sigma × Q` to `⊥ = (0,1)`, makes the relation total over
`Q × Sigma × Q`, and is idempotent. -/
theorem C7_complete_total_idempotent {σ α : Type} [DecidableEq σ] [DecidableEq α]
    (Sigma : List σ) (Q : List α) (d : α × σ × α → Option (ℚ × ℚ)) :
    (∀ t v, d t = some v → complete Sigma Q d t = some v) ∧
    (∀ t, d t = none → t.1 ∈ Q → t.2.1 ∈ Sigma → t.2.2 ∈ Q →
      complete Sigma Q d t = some bot) ∧
    (∀ q1 a q2, q1 ∈ Q → a ∈ Sigma → q2 ∈ Q →
      (complete Sigma Q d (q1, a, q2)).isSome = true) ∧
    complete Sigma Q (complete Sigma Q d) = complete Sigma Q d := by
  refine ⟨?_, ?_, ?_, ?_⟩
  · intro t v h
    simp [complete, h]
  · intro t h h1 h2 h3
    simp [complete, h, h1, h2, h3]
  · intro q1 a q2 h1 h2 h3
    rw [complete_lookup Sigma Q d q1 a q2 h1 h2 h3]
    rfl
  · funext t
    by_cases hc : t.1 ∈ Q ∧ t.2.1 ∈ Sigma ∧ t.2.2 ∈ Q
    · cases hd : d t with
      | some v => simp [complete, hd]
      | none => simp [complete, hd, hc]
    · cases hd : d t with
      | some v => simp [complete, hd]
      | none => simp [complete, hd, hc]

/-- Witness for C7 at the worked example's dict and the missing triple
`(0, 'a', 3)`. -/
theorem C7_complete_total_idempotent_witness :
    (complete exSigma exQ exDelta0 (0, 'a', 3)).isSome = true ∧
    complete exSigma exQ (complete exSigma exQ exDelta0) =
      complete exSigma exQ exDelta0 :=
  ⟨(C7_complete_total_idempotent exSigma exQ exDelta0).2.2.1 0 'a' 3
      (by decide) (by decide) (by decide),
    (C7_complete_total_idempotent exSigma exQ exDelta0).2.2.2⟩

/-- C9: the (spec-modelled) constructor of the original-automaton value
rejects, before the algorithm runs, an initial state outside `Q`, a
final-state set not included in `Q`, a transition value outside
`[0,1]²`, and a transition key mentioning a state or symbol outside
`Q`/`Sigma`; a successful construction returns the input unchanged and
guarantees well-formedness. -/
theorem C9_construction_rejects {σ α : Type} [DecidableEq σ] [DecidableEq α]
    (A : FPNAInput σ α) :
    (A.initial ∉ A.Q → mkFPNA A = none) ∧
    ((∃ f ∈ A.F, f ∉ A.Q) → mkFPNA A = none) ∧
    ((∃ e ∈ A.entries, ¬unitSq e.2) → mkFPNA A = none) ∧
    ((∃ e ∈ A.entries,
      e.1.1 ∉ A.Q ∨ e.1.2.1 ∉ A.Sigma ∨ e.1.2.2 ∉ A.Q) → mkFPNA A = none) ∧
    (∀ B, mkFPNA A = some B → B = A ∧ wellFormedInput A) := by
  refine ⟨?_, ?_, ?_, ?_, ?_⟩
  · intro h
    exact if_neg (fun hwf => h hwf.1)
  · rintro ⟨f, hf, hfq⟩
    exact if_neg (fun hwf => hfq (hwf.2.1 f hf))
  · rintro ⟨e, he, hv⟩
    exact if_neg (fun hwf => hv (hwf.2.2.1 e he))
  · rintro ⟨e, he, hk⟩
    refine if_neg (fun hwf => ?_)
    rcases hk with h | h | h
    · exact h (hwf.2.2.2 e he).1
    · exact h (hwf.2.2.2 e he).2.1
    · exact h (hwf.2.2.2 e he).2.2
  · intro B h
    by_cases hwf : wellFormedInput A
    · rw [mkFPNA, if_pos hwf] at h
      exact ⟨(Option.some.inj h).symm, hwf⟩
    · rw [mkFPNA, if_neg hwf] at h
      exact absurd h (by simp)

/-- Witness for C9 at a concrete ill-formed input. -/
theorem C9_construction_rejects_witness :
    badInput.initial ∉ badInput.Q ∧ mkFPNA badInput = none := by
  have h : badInput.initial ∉ badInput.Q := by decide
  exact ⟨h, (C9_construction_rejects badInput).1 h⟩

/-- C10: after completion, `deltastar`'s dict lookups all succeed for
states of `Q` and words over `Sigma` (the call returns a value), while a
call whose word uses the symbol `'c' ∉ Sigma` on the (non-empty) worked
example fails with a missing key. -/
theorem C10_lookup_safety :
    (∀ (σ α : Type) [DecidableEq σ] [DecidableEq α]
      (Sigma : List σ) (Q : List α) (d : α × σ × α → Option (ℚ × ℚ))
      (w : List σ) (q1 q2 : α), q1 ∈ Q → q2 ∈ Q → (∀ s ∈ w, s ∈ Sigma) →
      (deltastarD Q (complete Sigma Q d) w q1 q2).isSome = true) ∧
    ('c' ∉ exSigma ∧ exQ ≠ [] ∧ deltastarD exQ exDelta ['c'] 0 0 = none) := by
  constructor
  · intro σ α _ _ Sigma Q d w q1 q2 hq1 _ hw
    rw [deltastarD_eq_some Sigma Q d w q1 q2 hq1 hw]
    rfl
  · refine ⟨by decide, by decide, ?_⟩
    with_unfolding_all decide

/-! Machinery for C5 and C8: behaviour of one iteration of `step1`'s
while loop. -/

theorem processWord_fst_ws {σ α : Type} [DecidableEq σ] [LinearOrder α]
    (Q : List α) (df : α → σ → α → ℚ × ℚ) (ini : α) (st : Det σ α)
    (pl : List σ × σ) :
    (processWord Q df ini st pl).1.ws =
      dictInsert st.ws (wordOf pl) (stateOf Q df ini pl) := rfl

theorem processWord_fst_frontier {σ α : Type} [DecidableEq σ] [LinearOrder α]
    (Q : List α) (df : α → σ → α → ℚ × ℚ) (ini : α) (st : Det σ α)
    (pl : List σ × σ) :
    (processWord Q df ini st pl).1.frontier = st.frontier := rfl

theorem processWord_snd {σ α : Type} [DecidableEq σ] [LinearOrder α]
    (Q : List α) (df : α → σ → α → ℚ × ℚ) (ini : α) (st : Det σ α)
    (pl : List σ × σ) :
    (processWord Q df ini st pl).2 =
      if stateOf Q df ini pl ∈ st.ws.map Prod.snd ∨ stateOf Q df ini pl = []
      then false else true := rfl

theorem processWord_snd_iff {σ α : Type} [DecidableEq σ] [LinearOrder α]
    (Q : List α) (df : α → σ → α → ℚ × ℚ) (ini : α) (st : Det σ α)
    (pl : List σ × σ) :
    (processWord Q df ini st pl).2 = true ↔
      stateOf Q df ini pl ∉ st.ws.map Prod.snd ∧ stateOf Q df ini pl ≠ [] := by
  rw [processWord_snd]
  by_cases h : stateOf Q df ini pl ∈ st.ws.map Prod.snd ∨ stateOf Q df ini pl = []
  · rw [if_pos h]
    simp only [Bool.false_eq_true, false_iff]
    tauto
  · rw [if_neg h]
    simp only [true_iff]
    tauto

theorem procStep_eq {σ α : Type} [DecidableEq σ] [LinearOrder α]
    (Q : List α) (df : α → σ → α → ℚ × ℚ) (ini : α) (st : Det σ α)
    (sv0 : List (List σ × σ)) (pl : List σ × σ) :
    procStep Q df ini (st, sv0) pl =
      ((processWord Q df ini st pl).1,
        if (processWord Q df ini st pl).2 then sv0 ++ [pl] else sv0) := rfl

/-- Specification of the `for w in next_words` loop: processing a list
of fresh, duplicate-free words only grows the dict; the surviving words
come from the processed list, their subsets are non-empty, new relative
to all previously recorded subsets and pairwise distinct, and they are
recorded by the end of the loop. -/
theorem procFold_spec {σ α : Type} [DecidableEq σ] [LinearOrder α]
    (Q : List α) (df : α → σ → α → ℚ × ℚ) (ini : α) :
    ∀ (l : List (List σ × σ)) (st : Det σ α) (sv0 : List (List σ × σ)),
    (∀ pl ∈ l, wordOf pl ∉ st.ws.map Prod.fst) → l.Nodup →
    ∃ sv1,
      (l.foldl (procStep Q df ini) (st, sv0)).2 = sv0 ++ sv1 ∧
      (l.foldl (procStep Q df ini) (st, sv0)).1.frontier = st.frontier ∧
      (∀ v ∈ st.ws.map Prod.snd,
        v ∈ (l.foldl (procStep Q df ini) (st, sv0)).1.ws.map Prod.snd) ∧
      (∀ k ∈ (l.foldl (procStep Q df ini) (st, sv0)).1.ws.map Prod.fst,
        k ∈ st.ws.map Prod.fst ∨ ∃ pl ∈ l, k = wordOf pl) ∧
      (∀ v ∈ (l.foldl (procStep Q df ini) (st, sv0)).1.ws.map Prod.snd,
        v ∈ st.ws.map Prod.snd ∨ ∃ pl ∈ l, v = stateOf Q df ini pl) ∧
      (∀ pl ∈ sv1, pl ∈ l ∧ stateOf Q df ini pl ≠ [] ∧
        stateOf Q df ini pl ∉ st.ws.map Prod.snd ∧
        stateOf Q df ini pl ∈
          (l.foldl (procStep Q df ini) (st, sv0)).1.ws.map Prod.snd) ∧
      sv1.Nodup ∧
      sv1.Pairwise (fun a b => stateOf Q df ini a ≠ stateOf Q df ini b) := by
  intro l
  induction l with
  | nil =>
    intro st sv0 _ _
    exact ⟨[], by simp, rfl, fun v hv => hv, fun k hk => Or.inl hk,
      fun v hv => Or.inl hv, fun pl hpl => absurd hpl (List.not_mem_nil pl),
      List.nodup_nil, List.Pairwise.nil⟩
  | cons pl l ih =>
    intro st sv0 hfresh hnd
    have hfr : wordOf pl ∉ st.ws.map Prod.fst :=
      hfresh pl (List.mem_cons_self pl l)
    have hkeyne : ∀ e ∈ st.ws, e.1 ≠ wordOf pl := by
      intro e he h
      exact hfr (List.mem_map.2 ⟨e, he, h⟩)
    have hplnotl : pl ∉ l := (List.nodup_cons.1 hnd).1
    have hndl : l.Nodup := (List.nodup_cons.1 hnd).2
    have hvals : (processWord Q df ini st pl).1.ws.map Prod.snd =
        stateOf Q df ini pl :: st.ws.map Prod.snd := by
      rw [processWord_fst_ws]
      exact dictInsert_values_fresh st.ws (wordOf pl) (stateOf Q df ini pl) hkeyne
    have hfresh' : ∀ pl' ∈ l,
        wordOf pl' ∉ (processWord Q df ini st pl).1.ws.map Prod.fst := by
      intro pl' hpl' hmem
      rw [processWord_fst_ws] at hmem
      rcases dictInsert_keys_sub st.ws (wordOf pl) (stateOf Q df ini pl) _ hmem
        with h | h
      · exact hplnotl (wordOf_inj h ▸ hpl')
      · exact hfresh pl' (List.mem_cons_of_mem pl hpl') h
    obtain ⟨sv1', h1, h2, h4, h5, h6, h7, h8, h9⟩ :=
      ih (processWord Q df ini st pl).1
        (if (processWord Q df ini st pl).2 then sv0 ++ [pl] else sv0) hfresh' hndl
    have hfold : (pl :: l).foldl (procStep Q df ini) (st, sv0) =
        l.foldl (procStep Q df ini)
          ((processWord Q df ini st pl).1,
            if (processWord Q df ini st pl).2 then sv0 ++ [pl] else sv0) := by
      rw [List.foldl_cons, procStep_eq]
    have hsub : ∀ v ∈ st.ws.map Prod.snd,
        v ∈ (processWord Q df ini st pl).1.ws.map Prod.snd := by
      intro v hv
      rw [hvals]
      exact List.mem_cons_of_mem _ hv
    by_cases hs : (processWord Q df ini st pl).2 = true
    · -- the word survives
      obtain ⟨hnewmem, hnewne⟩ := (processWord_snd_iff Q df ini st pl).1 hs
      refine ⟨pl :: sv1', ?_, ?_, ?_, ?_, ?_, ?_, ?_, ?_⟩
      · rw [hfold, h1, if_pos hs, List.append_assoc, List.singleton_append]
      · rw [hfold, h2, processWord_fst_frontier]
      · intro v hv
        rw [hfold]
        exact h4 v (hsub v hv)
      · intro k hk
        rw [hfold] at hk
        rcases h5 k hk with h | ⟨pl', hpl', rfl⟩
        · rw [processWord_fst_ws] at h
          rcases dictInsert_keys_sub st.ws _ _ _ h with h | h
          · exact Or.inr ⟨pl, List.mem_cons_self pl l, h⟩
          · exact Or.inl h
        · exact Or.inr ⟨pl', List.mem_cons_of_mem pl hpl', rfl⟩
      · intro v hv
        rw [hfold] at hv
        rcases h6 v hv with h | ⟨pl', hpl', rfl⟩
        · rw [hvals] at h
          rcases List.mem_cons.1 h with rfl | h
          · exact Or.inr ⟨pl, List.mem_cons_self pl l, rfl⟩
          · exact Or.inl h
        · exact Or.inr ⟨pl', List.mem_cons_of_mem pl hpl', rfl⟩
      · intro pl' hpl'
        rcases List.mem_cons.1 hpl' with rfl | hpl'
        · refine ⟨List.mem_cons_self _ _, hnewne, hnewmem, ?_⟩
          rw [hfold]
          refine h4 _ ?_
          rw [hvals]
          exact List.mem_cons_self _ _
        · obtain ⟨ha, hb, hc, hd⟩ := h7 pl' hpl'
          refine ⟨List.mem_cons_of_mem pl ha, hb, fun hmem => hc (hsub _ hmem), ?_⟩
          rw [hfold]
          exact hd
      · rw [List.nodup_cons]
        refine ⟨fun hmem => hplnotl ((h7 pl hmem).1), h8⟩
      · refine List.Pairwise.cons ?_ h9
        intro pl' hpl'
        have hc := (h7 pl' hpl').2.2.1
        intro heq
        apply hc
        rw [hvals, ← heq]
        exact List.mem_cons_self _ _
    · -- the word is pruned
      have hsfalse : (processWord Q df ini st pl).2 = false := by
        cases h : (processWord Q df ini st pl).2
        · rfl
        · exact absurd h hs
      refine ⟨sv1', ?_, ?_, ?_, ?_, ?_, ?_, h8, h9⟩
      · rw [hfold, h1, if_neg (by simp [hsfalse])]
      · rw [hfold, h2, processWord_fst_frontier]
      · intro v hv
        rw [hfold]
        exact h4 v (hsub v hv)
      · intro k hk
        rw [hfold] at hk
        rcases h5 k hk with h | ⟨pl', hpl', rfl⟩
        · rw [processWord_fst_ws] at h
          rcases dictInsert_keys_sub st.ws _ _ _ h with h | h
          · exact Or.inr ⟨pl, List.mem_cons_self pl l, h⟩
          · exact Or.inl h
        · exact Or.inr ⟨pl', List.mem_cons_of_mem pl hpl', rfl⟩
      · intro v hv
        rw [hfold] at hv
        rcases h6 v hv with h | ⟨pl', hpl', rfl⟩
        · rw [hvals] at h
          rcases List.mem_cons.1 h with rfl | h
          · exact Or.inr ⟨pl, List.mem_cons_self pl l, rfl⟩
          · exact Or.inl h
        · exact Or.inr ⟨pl', List.mem_cons_of_mem pl hpl', rfl⟩
      · intro pl' hpl'
        obtain ⟨ha, hb, hc, hd⟩ := h7 pl' hpl'
        refine ⟨List.mem_cons_of_mem pl ha, hb, fun hmem => hc (hsub _ hmem), ?_⟩
        rw [hfold]
        exact hd

variable {σ α : Type} [DecidableEq σ] [LinearOrder α]
variable (Sigma : List σ) (Q : List α) (df : α → σ → α → ℚ × ℚ) (ini : α)

theorem step1Round_of_empty (st : Det σ α) (h : st.frontier = []) :
    step1Round Sigma Q df ini st = st := if_pos h

theorem step1Round_eq (st : Det σ α) (h : st.frontier ≠ []) :
    step1Round Sigma Q df ini st =
      ⟨(roundFold Q df ini st).1.transitions, (roundFold Q df ini st).1.ws,
        add_letter Sigma (roundFold Q df ini st).2⟩ := by
  rw [step1Round, if_neg h]

theorem itRound_zero : itRound Sigma Q df ini 0 = st0 Sigma := rfl

theorem itRound_succ (n : ℕ) :
    itRound Sigma Q df ini (n + 1) =
      step1Round Sigma Q df ini (itRound Sigma Q df ini n) :=
  Function.iterate_succ_apply' _ _ _

theorem wordOf_length (pl : List σ × σ) : (wordOf pl).length = pl.1.length + 1 := by
  simp [wordOf]

theorem frontier_fresh (n : ℕ) (st : Det σ α) (hinv : detInv Q df ini n st) :
    ∀ pl ∈ st.frontier, wordOf pl ∉ st.ws.map Prod.fst := by
  intro pl hpl hmem
  rcases List.mem_map.1 hmem with ⟨e, he, heq⟩
  have h1 : e.1.length ≤ n := hinv.1 e he
  rw [heq, wordOf_length, hinv.2.1 pl hpl] at h1
  omega

/-- The core properties of one full pass over the frontier. -/
theorem roundFold_props (n : ℕ) (st : Det σ α) (hinv : detInv Q df ini n st) :
    (roundFold Q df ini st).1.frontier = st.frontier ∧
    (∀ v ∈ st.ws.map Prod.snd, v ∈ (roundFold Q df ini st).1.ws.map Prod.snd) ∧
    (∀ k ∈ (roundFold Q df ini st).1.ws.map Prod.fst,
      k ∈ st.ws.map Prod.fst ∨ ∃ pl ∈ st.frontier, k = wordOf pl) ∧
    (∀ v ∈ (roundFold Q df ini st).1.ws.map Prod.snd,
      v ∈ st.ws.map Prod.snd ∨ ∃ pl ∈ st.frontier, v = stateOf Q df ini pl) ∧
    (∀ pl ∈ (roundFold Q df ini st).2, pl ∈ st.frontier ∧
      stateOf Q df ini pl ≠ [] ∧ stateOf Q df ini pl ∉ st.ws.map Prod.snd ∧
      stateOf Q df ini pl ∈ (roundFold Q df ini st).1.ws.map Prod.snd) ∧
    (roundFold Q df ini st).2.Nodup ∧
    (roundFold Q df ini st).2.Pairwise
      (fun a b => stateOf Q df ini a ≠ stateOf Q df ini b) := by
  obtain ⟨sv1, h1, h2, h4, h5, h6, h7, h8, h9⟩ :=
    procFold_spec Q df ini st.frontier st []
      (frontier_fresh Q df ini n st hinv) hinv.2.2.1
  have hsv : (roundFold Q df ini st).2 = sv1 := by
    rw [roundFold, h1, List.nil_append]
  rw [roundFold, hsv] at *
  exact ⟨h2, h4, h5, h6, h7, h8, h9⟩

theorem detInv_st0 (hS : Sigma.Nodup) :
    detInv Q df ini 0 (st0 Sigma : Det σ α) := by
  refine ⟨?_, ?_, ?_, ?_⟩
  · intro e he
    exact absurd he (List.not_mem_nil e)
  · intro pl hpl
    rcases List.mem_map.1 hpl with ⟨a, _, rfl⟩
    rfl
  · exact List.Nodup.map (fun a b hab => by simpa using hab) hS
  · intro v hv
    exact absurd hv (by simp [st0])

theorem detInv_step (hS : Sigma.Nodup) (n : ℕ) (st : Det σ α)
    (hinv : detInv Q df ini n st) :
    detInv Q df ini (n + 1) (step1Round Sigma Q df ini st) := by
  by_cases hf : st.frontier = []
  · rw [step1Round_of_empty Sigma Q df ini st hf]
    refine ⟨fun e he => (hinv.1 e he).trans (Nat.le_succ n), ?_, hinv.2.2.1,
      hinv.2.2.2⟩
    intro pl hpl
    rw [hf] at hpl
    exact absurd hpl (List.not_mem_nil pl)
  · obtain ⟨hfr, hmono, hkeys, hshape, hsurv, hnd, hpw⟩ :=
      roundFold_props Q df ini n st hinv
    rw [step1Round_eq Sigma Q df ini st hf]
    refine ⟨?_, ?_, ?_, ?_⟩
    · intro e he
      rcases hkeys e.1 (List.mem_map.2 ⟨e, he, rfl⟩) with hk | ⟨pl', hpl', heq⟩
      · rcases List.mem_map.1 hk with ⟨e', he', heq'⟩
        have := hinv.1 e' he'
        rw [heq'] at this
        omega
      · rw [heq, wordOf_length, hinv.2.1 pl' hpl']
    · intro pl hpl
      rcases List.mem_flatMap.1 hpl with ⟨pl', hpl', hmem⟩
      rcases List.mem_map.1 hmem with ⟨a, _, rfl⟩
      show (wordOf pl').length = n + 1
      rw [wordOf_length, hinv.2.1 pl' ((hsurv pl' hpl').1)]
    · refine List.nodup_flatMap.2 ⟨?_, ?_⟩
      · intro pl' _
        exact List.Nodup.map (fun a b hab => by simpa using hab) hS
      · refine hnd.imp ?_
        intro a b hab
        intro x hxa hxb
        rcases List.mem_map.1 hxa with ⟨c, _, rfl⟩
        rcases List.mem_map.1 hxb with ⟨c', _, heq⟩
        have : wordOf b = wordOf a := congrArg Prod.fst heq
        exact hab (wordOf_inj this.symm)
    · intro v hv
      rcases hshape v hv with h | ⟨pl', _, rfl⟩
      · exact hinv.2.2.2 v h
      · exact ⟨wordOf pl', rfl⟩

theorem detInv_it (hS : Sigma.Nodup) (n : ℕ) :
    detInv Q df ini n (itRound Sigma Q df ini n) := by
  induction n with
  | zero => exact detInv_st0 Sigma Q df ini hS
  | succ n ih =>
    rw [itRound_succ]
    exact detInv_step Sigma Q df ini hS n _ ih

theorem values_mono_step (n : ℕ) (st : Det σ α) (hinv : detInv Q df ini n st) :
    ∀ v ∈ st.ws.map Prod.snd,
      v ∈ (step1Round Sigma Q df ini st).ws.map Prod.snd := by
  by_cases hf : st.frontier = []
  · rw [step1Round_of_empty Sigma Q df ini st hf]
    exact fun v hv => hv
  · rw [step1Round_eq Sigma Q df ini st hf]
    exact (roundFold_props Q df ini n st hinv).2.1

theorem values_mono_le (hS : Sigma.Nodup) (m n : ℕ) (h : m ≤ n) :
    ∀ v ∈ (itRound Sigma Q df ini m).ws.map Prod.snd,
      v ∈ (itRound Sigma Q df ini n).ws.map Prod.snd := by
  induction n with
  | zero =>
    rw [Nat.le_zero.1 h]
    exact fun v hv => hv
  | succ n ih =>
    rcases Nat.lt_or_ge m (n + 1) with hlt | hge
    · intro v hv
      rw [itRound_succ]
      exact values_mono_step Sigma Q df ini n _
        (detInv_it Sigma Q df ini hS n) v (ih (Nat.lt_succ_iff.1 hlt) v hv)
    · rw [Nat.le_antisymm h hge]
      exact fun v hv => hv

theorem mem_dsCount_set (st : Det σ α) (v : List α) :
    v ∈ ((st.ws.map Prod.snd).filter (fun v => decide (v ≠ []))).toFinset ↔
      v ∈ st.ws.map Prod.snd ∧ v ≠ [] := by
  rw [List.mem_toFinset, List.mem_filter]
  simp

theorem dsCount_mono_step (n : ℕ) (st : Det σ α) (hinv : detInv Q df ini n st) :
    dsCount st ≤ dsCount (step1Round Sigma Q df ini st) := by
  unfold dsCount
  apply Finset.card_le_card
  intro v hv
  rw [mem_dsCount_set] at hv ⊢
  exact ⟨values_mono_step Sigma Q df ini n st hinv v hv.1, hv.2⟩

theorem add_letter_ne_nil {W : List (List σ × σ)}
    (h : add_letter Sigma W ≠ []) : W ≠ [] := by
  intro hW
  exact h (by rw [hW]; rfl)

theorem dsCount_strict_step (n : ℕ) (st : Det σ α) (hinv : detInv Q df ini n st)
    (hf' : (step1Round Sigma Q df ini st).frontier ≠ []) :
    dsCount st < dsCount (step1Round Sigma Q df ini st) := by
  by_cases hf : st.frontier = []
  · rw [step1Round_of_empty Sigma Q df ini st hf] at hf'
    exact absurd hf hf'
  · obtain ⟨hfr, hmono, hkeys, hshape, hsurv, hnd, hpw⟩ :=
      roundFold_props Q df ini n st hinv
    rw [step1Round_eq Sigma Q df ini st hf] at hf' ⊢
    have hsv : (roundFold Q df ini st).2 ≠ [] := add_letter_ne_nil Sigma hf'
    obtain ⟨pl, hpl⟩ := List.exists_mem_of_ne_nil _ hsv
    obtain ⟨hplf, hne, hnotm, hmem⟩ := hsurv pl hpl
    unfold dsCount
    apply Finset.card_lt_card
    have hsub : ((st.ws.map Prod.snd).filter (fun v => decide (v ≠ []))).toFinset ⊆
        (((roundFold Q df ini st).1.ws.map Prod.snd).filter
          (fun v => decide (v ≠ []))).toFinset := by
      intro v hv
      rw [mem_dsCount_set] at hv
      exact (mem_dsCount_set _ _).2 ⟨hmono v hv.1, hv.2⟩
    exact (Finset.ssubset_iff_of_subset hsub).2
      ⟨stateOf Q df ini pl, (mem_dsCount_set _ _).2 ⟨hmem, hne⟩,
        fun hc => hnotm ((mem_dsCount_set _ _).1 hc).1⟩

theorem dsCount_bound (hQ : Q.Nodup) (n : ℕ) (st : Det σ α)
    (hinv : detInv Q df ini n st) : dsCount st ≤ 2 ^ Q.length - 1 := by
  unfold dsCount
  have hcard : (Q.toFinset.powerset.erase ∅).card = 2 ^ Q.length - 1 := by
    rw [Finset.card_erase_of_mem (Finset.empty_mem_powerset _),
      Finset.card_powerset, List.toFinset_card_of_nodup hQ]
  rw [← hcard]
  apply Finset.card_le_card_of_injOn List.toFinset
  · intro v hv
    rw [mem_dsCount_set] at hv
    obtain ⟨hvm, hvne⟩ := hv
    obtain ⟨w, rfl⟩ := hinv.2.2.2 v hvm
    rw [Finset.mem_erase]
    refine ⟨fun hempty => hvne ((List.toFinset_eq_empty_iff _).1 hempty), ?_⟩
    rw [Finset.mem_powerset]
    intro x hx
    rw [List.mem_toFinset] at hx
    have hx2 : x ∈ reach Q df ini w := (List.mem_insertionSort _).1 hx
    exact List.mem_toFinset.2 (List.mem_filter.1 hx2).1
  · intro v1 hv1 v2 hv2 heq
    rw [Finset.mem_coe, mem_dsCount_set] at hv1 hv2
    obtain ⟨w1, rfl⟩ := hinv.2.2.2 v1 hv1.1
    obtain ⟨w2, rfl⟩ := hinv.2.2.2 v2 hv2.1
    have hnd1 : (to_state (reach Q df ini w1)).Nodup :=
      (List.perm_insertionSort _ _).nodup_iff.2 (List.Nodup.filter _ hQ)
    have hnd2 : (to_state (reach Q df ini w2)).Nodup :=
      (List.perm_insertionSort _ _).nodup_iff.2 (List.Nodup.filter _ hQ)
    have hperm : List.Perm (to_state (reach Q df ini w1))
        (to_state (reach Q df ini w2)) := by
      rw [List.perm_ext_iff_of_nodup hnd1 hnd2]
      intro a
      rw [← List.mem_toFinset, heq, List.mem_toFinset]
    exact List.eq_of_perm_of_sorted hperm
      (List.sorted_insertionSort _ _) (List.sorted_insertionSort _ _)

theorem frontier_stable (n : ℕ) (h : (itRound Sigma Q df ini n).frontier = []) :
    ∀ m, n ≤ m → itRound Sigma Q df ini m = itRound Sigma Q df ini n := by
  intro m hm
  induction m with
  | zero => rw [Nat.le_zero.1 hm]
  | succ m ih =>
    rcases Nat.lt_or_ge n (m + 1) with hlt | hge
    · have hm' : n ≤ m := Nat.lt_succ_iff.1 hlt
      rw [itRound_succ, ih hm', step1Round_of_empty Sigma Q df ini _ h]
    · rw [Nat.le_antisymm hge hm]

theorem frontier_progress (hS : Sigma.Nodup) (k : ℕ)
    (h : (itRound Sigma Q df ini k).frontier ≠ []) :
    k ≤ dsCount (itRound Sigma Q df ini k) := by
  induction k with
  | zero => exact Nat.zero_le _
  | succ k ih =>
    have hk : (itRound Sigma Q df ini k).frontier ≠ [] := by
      intro he
      apply h
      rw [itRound_succ, step1Round_of_empty Sigma Q df ini _ he, he]
    have h1 : dsCount (itRound Sigma Q df ini k) <
        dsCount (itRound Sigma Q df ini (k + 1)) := by
      rw [itRound_succ]
      refine dsCount_strict_step Sigma Q df ini k _
        (detInv_it Sigma Q df ini hS k) ?_
      rw [← itRound_succ]
      exact h
    have h2 := ih hk
    omega

theorem step1_frontier_empty (hS : Sigma.Nodup) (hQ : Q.Nodup) :
    (itRound Sigma Q df ini (2 ^ Q.length)).frontier = [] := by
  by_contra h
  have h1 := frontier_progress Sigma Q df ini hS (2 ^ Q.length) h
  have h2 := dsCount_bound Q df ini hQ (2 ^ Q.length) _
    (detInv_it Sigma Q df ini hS (2 ^ Q.length))
  have h3 : 0 < 2 ^ Q.length := by positivity
  omega

theorem roundSurvivors_empty (n : ℕ)
    (hf : (itRound Sigma Q df ini n).frontier = []) :
    roundSurvivors Sigma Q df ini n = [] := by
  rw [roundSurvivors, roundFold, hf]
  rfl

theorem survivor_props (hS : Sigma.Nodup) (n : ℕ) (pl : List σ × σ)
    (hpl : pl ∈ roundSurvivors Sigma Q df ini n) :
    pl ∈ (itRound Sigma Q df ini n).frontier ∧
    stateOf Q df ini pl ≠ [] ∧
    stateOf Q df ini pl ∉ (itRound Sigma Q df ini n).ws.map Prod.snd ∧
    stateOf Q df ini pl ∈ (itRound Sigma Q df ini (n + 1)).ws.map Prod.snd := by
  by_cases hf : (itRound Sigma Q df ini n).frontier = []
  · rw [roundSurvivors_empty Sigma Q df ini n hf] at hpl
    exact absurd hpl (List.not_mem_nil pl)
  · obtain ⟨_, _, _, _, hsurv, _, _⟩ :=
      roundFold_props Q df ini n _ (detInv_it Sigma Q df ini hS n)
    obtain ⟨h1, h2, h3, h4⟩ := hsurv pl hpl
    refine ⟨h1, h2, h3, ?_⟩
    rw [itRound_succ, step1Round_eq Sigma Q df ini _ hf]
    exact h4

theorem survivors_once (hS : Sigma.Nodup) :
    ∀ m n pl1 pl2, pl1 ∈ roundSurvivors Sigma Q df ini m →
      pl2 ∈ roundSurvivors Sigma Q df ini n →
      stateOf Q df ini pl1 = stateOf Q df ini pl2 → m = n ∧ pl1 = pl2 := by
  have cross : ∀ m n pl1 pl2, m < n →
      pl1 ∈ roundSurvivors Sigma Q df ini m →
      pl2 ∈ roundSurvivors Sigma Q df ini n →
      stateOf Q df ini pl1 ≠ stateOf Q df ini pl2 := by
    intro m n pl1 pl2 hmn h1 h2 heq
    have ha := (survivor_props Sigma Q df ini hS m pl1 h1).2.2.2
    have hb := (survivor_props Sigma Q df ini hS n pl2 h2).2.2.1
    exact hb (heq ▸ values_mono_le Sigma Q df ini hS (m + 1) n hmn _ ha)
  intro m n pl1 pl2 h1 h2 heq
  rcases lt_trichotomy m n with hlt | rfl | hlt
  · exact absurd heq (cross m n pl1 pl2 hlt h1 h2)
  · refine ⟨rfl, ?_⟩
    by_contra hne
    by_cases hf : (itRound Sigma Q df ini m).frontier = []
    · rw [roundSurvivors_empty Sigma Q df ini m hf] at h1
      exact (List.not_mem_nil pl1) h1
    · obtain ⟨_, _, _, _, _, hnd, hpw⟩ :=
        roundFold_props Q df ini m _ (detInv_it Sigma Q df ini hS m)
      have hsym : Symmetric (fun a b : List σ × σ =>
          stateOf Q df ini a ≠ stateOf Q df ini b) := fun a b hab e => hab e.symm
      exact List.Pairwise.forall hsym hpw h1 h2 hne heq
  · exact absurd heq.symm (cross n m pl2 pl1 hlt h2 h1)

/-- C5: for a valid automaton, `step1`'s loop provably empties its
frontier within `2 ^ |Q|` iterations (and running longer changes
nothing), each distinct discovered non-empty subset is extended from at
most once over the whole run, and the number of deterministic states
discovered never exceeds `2 ^ |Q| - 1`. -/
theorem C5_step1_terminates_bounds (hS : Sigma.Nodup) (hQ : Q.Nodup) :
    (itRound Sigma Q df ini (2 ^ Q.length)).frontier = [] ∧
    (∀ m, 2 ^ Q.length ≤ m →
      itRound Sigma Q df ini m = itRound Sigma Q df ini (2 ^ Q.length)) ∧
    (∀ m n pl1 pl2, pl1 ∈ roundSurvivors Sigma Q df ini m →
      pl2 ∈ roundSurvivors Sigma Q df ini n →
      stateOf Q df ini pl1 = stateOf Q df ini pl2 → m = n ∧ pl1 = pl2) ∧
    (∀ n, dsCount (itRound Sigma Q df ini n) ≤ 2 ^ Q.length - 1) := by
  refine ⟨step1_frontier_empty Sigma Q df ini hS hQ, ?_, ?_, ?_⟩
  · exact frontier_stable Sigma Q df ini (2 ^ Q.length)
      (step1_frontier_empty Sigma Q df ini hS hQ)
  · exact survivors_once Sigma Q df ini hS
  · exact fun n => dsCount_bound Q df ini hQ n _
      (detInv_it Sigma Q df ini hS n)

/-- The fold of `step1`'s inner loop neither records transitions nor
lets words survive when every processed word leads to the empty
subset. -/
theorem procFold_deadlock :
    ∀ (l : List (List σ × σ)) (st : Det σ α) (sv0 : List (List σ × σ)),
    (∀ pl ∈ l, stateOf Q df ini pl = []) →
    (l.foldl (procStep Q df ini) (st, sv0)).1.transitions = st.transitions ∧
    (l.foldl (procStep Q df ini) (st, sv0)).2 = sv0 := by
  intro l
  induction l with
  | nil => exact fun st sv0 _ => ⟨rfl, rfl⟩
  | cons pl l ih =>
    intro st sv0 hd
    have hpl : stateOf Q df ini pl = [] := hd pl (List.mem_cons_self _ _)
    have htr : (processWord Q df ini st pl).1.transitions = st.transitions := by
      show (if ((dictGet st.ws pl.1).getD (to_state [ini]), pl.2,
            stateOf Q df ini pl) ∉ st.transitions ∧ stateOf Q df ini pl ≠ []
          then ((dictGet st.ws pl.1).getD (to_state [ini]), pl.2,
            stateOf Q df ini pl) :: st.transitions
          else st.transitions) = st.transitions
      rw [if_neg (fun hcon => hcon.2 hpl)]
    have hsv : (processWord Q df ini st pl).2 = false := by
      rw [processWord_snd, if_pos (Or.inr hpl)]
    rw [List.foldl_cons, procStep_eq, hsv, if_neg (by simp)]
    obtain ⟨ha, hb⟩ := ih (processWord Q df ini st pl).1 sv0
      (fun pl' h' => hd pl' (List.mem_cons_of_mem _ h'))
    exact ⟨ha.trans htr, hb⟩

/-- C8 (amended): when no alphabet symbol reaches a non-empty subset
from the initial state, `step1` returns no transitions and `step2`'s
computed deterministic state set is empty (the initial deterministic
state is reported separately and has no outgoing transitions). -/
theorem C8_no_reachable_amended
    (hdead : ∀ a ∈ Sigma, reach Q df ini [a] = []) :
    step1 Sigma Q df ini = [] ∧ (step2 df (step1 Sigma Q df ini)).1 = [] := by
  have hst0 : ∀ pl ∈ (st0 Sigma : Det σ α).frontier, stateOf Q df ini pl = [] := by
    intro pl hpl
    rcases List.mem_map.1 hpl with ⟨a, ha, rfl⟩
    show to_state (reach Q df ini (wordOf (([] : List σ), a))) = []
    have he : wordOf (([] : List σ), a) = [a] := rfl
    rw [he, hdead a ha]
    rfl
  by_cases hS0 : (st0 Sigma : Det σ α).frontier = []
  · have hs1 : step1 Sigma Q df ini = [] := by
      rw [step1, frontier_stable Sigma Q df ini 0 hS0 _ (Nat.zero_le _),
        itRound_zero]
      rfl
    refine ⟨hs1, by rw [hs1]; rfl⟩
  · have e1 : itRound Sigma Q df ini 1 =
        step1Round Sigma Q df ini (itRound Sigma Q df ini 0) :=
      itRound_succ Sigma Q df ini 0
    have hsv2 : (roundFold Q df ini (st0 Sigma)).2 = [] :=
      (procFold_deadlock Q df ini (st0 Sigma).frontier (st0 Sigma) [] hst0).2
    have htr2 : (roundFold Q df ini (st0 Sigma)).1.transitions = [] :=
      (procFold_deadlock Q df ini (st0 Sigma).frontier (st0 Sigma) [] hst0).1
    have hfr1 : (itRound Sigma Q df ini 1).frontier = [] := by
      rw [e1, itRound_zero, step1Round_eq Sigma Q df ini _ hS0]
      show add_letter Sigma (roundFold Q df ini (st0 Sigma)).2 = []
      rw [hsv2]
      rfl
    have htr1 : (itRound Sigma Q df ini 1).transitions = [] := by
      rw [e1, itRound_zero, step1Round_eq Sigma Q df ini _ hS0]
      exact htr2
    have hs1 : step1 Sigma Q df ini = [] := by
      rw [step1, frontier_stable Sigma Q df ini 1 hfr1 _ (pow_pos (by omega : (0:ℕ) < 2) Q.length)]
      exact htr1
    exact ⟨hs1, by rw [hs1]; rfl⟩

/-- Witness for C5 at the worked example automaton. -/
theorem C5_step1_terminates_bounds_witness :
    (exSigma.Nodup ∧ exQ.Nodup) ∧
    (itRound exSigma exQ exDf exInitial (2 ^ exQ.length)).frontier = [] := by
  refine ⟨⟨by decide, by decide⟩, ?_⟩
  exact (C5_step1_terminates_bounds exSigma exQ exDf exInitial (by decide)
    (by decide)).1

/-- Counterexample for C8 as stated: on a one-state automaton with no
raw transitions, no symbol reaches a non-empty subset, `step1` is empty
— but the determinized state set `QD` computed by `step2` is empty too,
so it does not contain the encoding of `{initial}`. -/
theorem C8_counterexample_empty_QD :
    (∀ a ∈ edSigma, reach edQ edDf 0 [a] = []) ∧
    edStep1 = [] ∧ edQD = [] ∧ to_state [0] ∉ edQD := by
  with_unfolding_all decide

/-- Witness for the amended C8 at the degenerate automaton. -/
theorem C8_no_reachable_amended_witness :
    (∀ a ∈ edSigma, reach edQ edDf 0 [a] = []) ∧
    step1 edSigma edQ edDf 0 = [] ∧
    (step2 edDf (step1 edSigma edQ edDf 0)).1 = [] := by
  have h : ∀ a ∈ edSigma, reach edQ edDf 0 [a] = [] := by
    with_unfolding_all decide
  exact ⟨h, C8_no_reachable_amended edSigma edQ edDf 0 h⟩

/-- Witness for C10 at the worked example (`q1 = 0`, `q2 = 3`,
`w = "ab"`). -/
theorem C10_lookup_safety_witness :
    ((0 : ℕ) ∈ exQ ∧ (3 : ℕ) ∈ exQ ∧
      (∀ s ∈ (['a', 'b'] : List Char), s ∈ exSigma)) ∧
    (deltastarD exQ (complete exSigma exQ exDelta0) ['a', 'b'] 0 3).isSome =
      true := by
  refine ⟨⟨by decide, by decide, by decide⟩, ?_⟩
  exact C10_lookup_safety.1 Char ℕ exSigma exQ exDelta0 ['a', 'b'] 0 3
    (by decide) (by decide) (by decide)

end FPNA
